import Mathlib

/-!
Verification of the calibration and extraction pipeline of the
SiEPIC Photonics Package (`SiEPIC_Photonics_Package/core.py`).

The Python code operates on numpy float arrays; here every quantity is
modelled over `ℚ` (exact rational arithmetic, as the claims direct for
the statements that the spec phrases with a floating-point tolerance).
`numpy.polyfit` is the least-squares polynomial fit; it is embedded as
the explicit normal-equations solution (Gram matrix built from the
Vandermonde design matrix, inverted through the adjugate).  Coefficient
lists are kept in numpy's order, highest degree first, and
`numpy.polyval`'s Horner evaluation is embedded as a left fold.

Fallible Python operations (index errors, numpy shape errors, division
by zero, `max` of an empty list) are modelled with `Except PyErr`.
Python's negative-index wraparound on numpy arrays is modelled in
`pyGet`.  The unbounded `while` loops of `bandwidth` and of the envelope
scan are modelled with an explicit fuel argument that is large enough to
cover every terminating run of the original loops.
-/

namespace SPP

/-- The Python exceptions that the modelled code can raise. -/
inductive PyErr : Type
  | typeError
  | indexError
  | zeroDivisionError
  | valueError
deriving DecidableEq

deriving instance DecidableEq for Except

/-- numpy.mean of a list (0 on the empty list, which the code never hits
on the paths the claims exercise). -/
def mean (l : List ℚ) : ℚ := l.sum / (l.length : ℚ)

/-- The mean-centering `x - numpy.mean(x)` applied throughout core.py. -/
def centered (l : List ℚ) : List ℚ := l.map (fun a => a - mean l)

/-- Horner evaluation of a coefficient list given highest degree first,
exactly the loop inside `numpy.polyval`. -/
def hornerD (p : List ℚ) (v : ℚ) : ℚ := p.foldl (fun acc c => acc * v + c) 0

/-- numpy.polyval over a list of sample points. -/
def polyval (p : List ℚ) (x : List ℚ) : List ℚ := x.map (hornerD p)

/-- Gram matrix `Vᵀ V` of the degree-`d` Vandermonde design matrix of the
sample points `xf` (entries are the power sums of the samples). -/
def gram (d : ℕ) {n : ℕ} (xf : Fin n → ℚ) : Matrix (Fin (d + 1)) (Fin (d + 1)) ℚ :=
Matrix.of fun i j => ∑ t, xf t ^ ((i : ℕ) + (j : ℕ))

/-- Moment vector `Vᵀ y` of the least-squares normal equations. -/
def moments (d : ℕ) {n : ℕ} (xf yf : Fin n → ℚ) : Fin (d + 1) → ℚ :=
fun i => ∑ t, xf t ^ (i : ℕ) * yf t

/-- Inverse of a rational square matrix through the adjugate; equal to
Mathlib's nonsingular inverse, but computable. -/
def matInv {m : ℕ} (M : Matrix (Fin m) (Fin m) ℚ) : Matrix (Fin m) (Fin m) ℚ :=
M.det⁻¹ • M.adjugate

/-- Least-squares coefficients (ascending degree) of the degree-`d` fit of
`yf` against `xf`: the solution of the normal equations. -/
def lsqCoeffAsc (d : ℕ) {n : ℕ} (xf yf : Fin n → ℚ) : Fin (d + 1) → ℚ :=
(matInv (gram d xf)).mulVec (moments d xf yf)

/-- numpy.polyfit: least-squares polynomial fit, coefficients returned
highest degree first (numpy's convention). -/
def polyfit (x y : List ℚ) (d : ℕ) : List ℚ :=
(List.ofFn (lsqCoeffAsc d x.get (fun t => y.getD t 0))).reverse

/-- numpy.polyfit with its argument checks: it raises `TypeError` when the
sample vector is empty or when the two vectors have different lengths. -/
def polyfitChk (x y : List ℚ) (d : ℕ) : Except PyErr (List ℚ) :=
if x.length = 0 ∨ x.length ≠ y.length then .error .typeError
else .ok (polyfit x y d)

/-- core.py `calibrate`: fit the reference power to a degree-8 polynomial
over the centered reference wavelength, evaluate it there, and subtract it
elementwise from the input power. -/
def calibrate (input_response reference_response : List ℚ × List ℚ) :
    Except PyErr (List ℚ × List ℚ) := do
  let wavelength := reference_response.1
  let power := reference_response.2
  let pfit ← polyfitChk (centered wavelength) power 8
  let power_calib_fit := polyval pfit (centered wavelength)
  let power_corrected := List.zipWith (fun a b => a - b) input_response.2 power_calib_fit
  Except.ok (power_corrected, power_calib_fit)

/-- Python `max` over a list (0 on the empty list; every use below is
guarded so that the list is nonempty, as in the Python paths). -/
def listMax : List ℚ → ℚ
  | [] => 0
  | a :: rest => rest.foldl max a

/-- core.py `baseline_correction`: degree-4 fit of the power over the
centered wavelength, subtracted from the power, then shifted by
`max(power_baseline) - max(power)`. -/
def baseline_correction (input_response : List ℚ × List ℚ) :
    Except PyErr (List ℚ × List ℚ) := do
  let wavelength := input_response.1
  let power := input_response.2
  let pfit ← polyfitChk (centered wavelength) power 4
  let power_baseline := polyval pfit (centered wavelength)
  let power_corrected := List.zipWith (fun a b => a - b) power power_baseline
  let power_corrected2 := power_corrected.map (fun a => a + (listMax power_baseline - listMax power))
  Except.ok (power_corrected2, power_baseline)

/-- The inner `while` of the envelope scan of `calibrate_envelope`: advance
`cursor_next` while the gap to `point_initial` exceeds `difference_tol`
and `(cursor_next + 2) * step` stays below the array size.  The fuel
argument (called with the array length) covers every terminating run of
the Python loop. -/
def envInner (power : List ℚ) (step : ℕ) (tol point_initial : ℚ) :
    ℕ → ℕ → ℕ
  | 0, cursor_next => cursor_next
  | fuel + 1, cursor_next =>
    if tol < |point_initial - power.getD (step * cursor_next) 0| ∧
        (cursor_next + 2) * step < power.length then
      envInner power step tol point_initial fuel (cursor_next + 1)
    else cursor_next

/-- The `for i in range(seg)` envelope scan of `calibrate_envelope`,
returning the accepted sample indices (`cursor_initial * step` at each
accepting iteration) in chronological order.  The Python code appends
`power[...]` and `wavelength[...]` at those indices; `calibrate_envelope`
below rebuilds those two lists from the indices. -/
def envScan (power : List ℚ) (step : ℕ) (tol : ℚ) :
    ℕ → ℕ → ℕ → List ℕ → List ℕ
  | 0, _, _, acc => acc.reverse
  | iters + 1, cursor_initial, cursor_next, acc =>
    let point_initial := power.getD (cursor_initial * step) 0
    let point_next := power.getD (step * cursor_next) 0
    if |point_initial - point_next| < tol then
      let acc' := cursor_initial * step :: acc
      if power.length ≤ (cursor_next + 1) * step then acc'.reverse
      else envScan power step tol iters (cursor_initial + 1) (cursor_next + 1) acc'
    else
      let cn2 := envInner power step tol point_initial power.length cursor_next
      if power.length ≤ (cn2 + 1) * step then acc.reverse
      else envScan power step tol iters cn2 (cn2 + 1) acc

/-- core.py `calibrate_envelope` (defaults `seg = 55`,
`difference_tol = 8`, `fitOrder = 4` are passed explicitly here).  The
guard `power.length ≤ step` models the IndexError that Python raises on
the very first reads `power[0]` / `power[step]`; after that first
iteration the end-of-iteration break check keeps every read in bounds.
The fit of the input trace against itself is computed, bound into the
error monad exactly where the Python line sits, and never used in the
returned value. -/
def calibrate_envelope (input_response reference_response : List ℚ × List ℚ)
    (seg : ℕ) (difference_tol : ℚ) (fitOrder : ℕ) :
    Except PyErr (List ℚ × List ℚ) := do
  let wavelength := reference_response.1
  let power := reference_response.2
  let wavelength_input := input_response.1
  let power_input := input_response.2
  if seg = 0 then .error .zeroDivisionError else do
  let step := power.length / seg
  if power.length ≤ step then .error .indexError else do
  let idxs := envScan power step difference_tol seg 0 1 []
  let power_ref := idxs.map (fun k => power.getD k 0)
  let wavelength_ref := idxs.map (fun k => wavelength.getD k 0)
  let pfit_ref ← polyfitChk (centered wavelength_ref) power_ref fitOrder
  let powerfit_ref := polyval pfit_ref (centered wavelength)
  let pfit_input ← polyfitChk (centered wavelength_input) power_input fitOrder
  let _powerfit_input := polyval pfit_input (centered wavelength_input)
  let power_input_calibrated := List.zipWith (fun a b => a - b) power_input powerfit_ref
  Except.ok (power_input_calibrated, powerfit_ref)

/-- `calibrate_envelope` with the input trace's own fit/evaluate pair
(`pfit_input` / `powerfit_input`) removed; used to settle whether that
computation affects the returned value. -/
def calibrate_envelopeNoDead (input_response reference_response : List ℚ × List ℚ)
    (seg : ℕ) (difference_tol : ℚ) (fitOrder : ℕ) :
    Except PyErr (List ℚ × List ℚ) := do
  let wavelength := reference_response.1
  let power := reference_response.2
  let power_input := input_response.2
  if seg = 0 then .error .zeroDivisionError else do
  let step := power.length / seg
  if power.length ≤ step then .error .indexError else do
  let idxs := envScan power step difference_tol seg 0 1 []
  let power_ref := idxs.map (fun k => power.getD k 0)
  let wavelength_ref := idxs.map (fun k => wavelength.getD k 0)
  let pfit_ref ← polyfitChk (centered wavelength_ref) power_ref fitOrder
  let powerfit_ref := polyval pfit_ref (centered wavelength)
  let power_input_calibrated := List.zipWith (fun a b => a - b) power_input powerfit_ref
  Except.ok (power_input_calibrated, powerfit_ref)

/-- Lift an optional value into the error monad, raising IndexError on
`none`: the behaviour of a Python indexing expression on a lookup that
may fall off the data (`input_data_response[i]`, `numpy.where(...)[0][0]`). -/
def optIdx {α : Type} (o : Option α) : Except PyErr α :=
  match o with
  | some t => .ok t
  | none => .error .indexError

/-- The `for i in range(len(input_data_count))` loop of `cutback`: for each
index, read trace `i` (IndexError past the family), fit its power to a
degree-8 polynomial over the shared centered wavelength axis, and record
the raw power together with its evaluated fit. -/
def cutbackLoop (resp : List (List ℚ × List ℚ)) (cw : List ℚ) :
    List ℕ → Except PyErr (List (List ℚ × List ℚ))
  | [] => .ok []
  | i :: rest => do
    let t ← optIdx (resp.get? i)
    let pf ← polyfitChk cw t.2 8
    let tail ← cutbackLoop resp cw rest
    Except.ok ((t.2, polyval pf cw) :: tail)

/-- First index at which `v` occurs in `l`: the value of
`numpy.where(l == v)[0][0]`, `none` when `v` is absent (in which case the
Python indexing `[0]` of the empty match raises IndexError). -/
def firstIdx (l : List ℚ) (v : ℚ) : Option ℕ :=
  match l with
  | [] => none
  | a :: rest => if a = v then some 0 else (firstIdx rest v).map (· + 1)

/-- numpy.transpose of a rectangular list of rows (every row that reaches
this point has exactly `ncols` entries, enforced by the checked fits). -/
def transposeL (rows : List (List ℚ)) (ncols : ℕ) : List (List ℚ) :=
(List.range ncols).map (fun j => rows.map (fun r => r.getD j 0))

/-- core.py `cutback`: the wavelength axis is read from the first trace
only; each trace power is fitted (degree 8); for every wavelength sample a
degree-1 regression of fitted power and of raw power against the unit
counts is performed; the result is the fitted slope at the exact-match
index of `wavelength`, plus both slope-versus-wavelength lists. -/
def cutback (input_data_response : List (List ℚ × List ℚ))
    (input_data_count : List ℚ) (wavelength : ℚ) :
    Except PyErr (ℚ × List ℚ × List ℚ) := do
  if input_data_response = [] then .error .indexError else do
  let wavelength_data := (input_data_response.getD 0 ([], [])).1
  let cw := centered wavelength_data
  let pp ← cutbackLoop input_data_response cw (List.range input_data_count.length)
  let power_fit_transpose := transposeL (pp.map Prod.snd) wavelength_data.length
  let power_transpose := transposeL (pp.map Prod.fst) wavelength_data.length
  let index ← optIdx (firstIdx wavelength_data wavelength)
  let ils ← (List.range wavelength_data.length).mapM (fun j => do
    let a ← polyfitChk input_data_count (power_fit_transpose.getD j []) 1
    let b ← polyfitChk input_data_count (power_transpose.getD j []) 1
    Except.ok (a, b))
  Except.ok ((ils.getD index ([], [])).1.getD 0 0,
    ils.map (fun p => p.1.getD 0 0), ils.map (fun p => p.2.getD 0 0))

/-- First index of the minimum of a list (numpy.argmin): `cur` is the
index of the next element, `bi`/`bv` the best index and value so far. -/
def idxMinAux : List ℚ → ℕ → ℕ → ℚ → ℕ
  | [], _, bi, _ => bi
  | a :: rest, cur, bi, bv =>
    if a < bv then idxMinAux rest (cur + 1) cur a
    else idxMinAux rest (cur + 1) bi bv

/-- core.py `find_nearest`: index of the entry nearest to `value`
(numpy.argmin of the absolute differences, first index on ties). -/
def find_nearest (arr : List ℚ) (value : ℚ) : ℕ :=
  match arr.map (fun a => |a - value|) with
  | [] => 0
  | d :: _ => idxMinAux (arr.map (fun a => |a - value|)).tail 1 0 d

/-- Python/numpy array indexing with an integer index: a negative index
within `-n .. -1` wraps to the end of the array; anything outside
`-n .. n-1` raises IndexError. -/
def pyGet {α : Type} (l : List α) (dflt : α) (i : ℤ) : Except PyErr α :=
  if 0 ≤ i ∧ i < (l.length : ℤ) then .ok (l.getD i.toNat dflt)
  else if -(l.length : ℤ) ≤ i ∧ i < 0 then .ok (l.getD (i + (l.length : ℤ)).toNat dflt)
  else .error .indexError

/-- The left edge scan of `bandwidth`: decrement while the mask holds,
with Python's wrapping semantics for negative indices.  The fuel used by
`bandwidth` (`2 * n + 2`) exceeds the number of steps of any run of the
Python loop, which stops (or raises) before the index passes `-n - 1`. -/
def scanLeft (inBand : List Bool) : ℕ → ℤ → Except PyErr ℤ
  | 0, _ => .error .indexError
  | fuel + 1, i => do
    let b ← pyGet inBand false i
    if b then scanLeft inBand fuel (i - 1) else .ok i

/-- The right edge scan of `bandwidth`: increment while the mask holds. -/
def scanRight (inBand : List Bool) : ℕ → ℤ → Except PyErr ℤ
  | 0, _ => .error .indexError
  | fuel + 1, i => do
    let b ← pyGet inBand false i
    if b then scanRight inBand fuel (i + 1) else .ok i

/-- core.py `bandwidth` (default `threshold = 3` passed explicitly): find
the peak index, build the in-band mask `response > max - threshold`, scan
left and then right from the peak until the mask fails, and report the
wavelength difference and midpoint of the two stopping indices. -/
def bandwidth (input_data_response : List ℚ × List ℚ) (threshold : ℚ) :
    Except PyErr (ℚ × ℚ) := do
  let wavelength := input_data_response.1
  let response := input_data_response.2
  if response = [] then .error .valueError else do
  let mx := listMax response
  let center_index := find_nearest response mx
  let isInBand := response.map (fun p => decide (mx - threshold < p))
  let leftBound ← scanLeft isInBand (2 * isInBand.length + 2) (center_index : ℤ)
  let rightBound ← scanRight isInBand (2 * isInBand.length + 2) (center_index : ℤ)
  let wr ← pyGet wavelength 0 rightBound
  let wlft ← pyGet wavelength 0 leftBound
  Except.ok (wr - wlft, (wr + wlft) / 2)

/-! ### Helper lemmas: Horner evaluation as a power sum -/

theorem hornerD_concat (c : List ℚ) (a v : ℚ) :
    hornerD (c ++ [a]) v = hornerD c v * v + a := by
  simp [hornerD, List.foldl_append]

theorem hornerD_eq_sum (c : List ℚ) (v : ℚ) :
    hornerD c v = ∑ j ∈ Finset.range c.length, c.reverse.getD j 0 * v ^ j := by
  induction c using List.reverseRecOn with
  | nil => simp [hornerD]
  | append_singleton c a ih =>
    rw [hornerD_concat, ih]
    simp only [List.length_append, List.length_singleton, List.reverse_append,
      List.reverse_singleton, List.singleton_append]
    rw [Finset.sum_range_succ']
    simp only [List.getD_cons_succ, List.getD_cons_zero, pow_zero, mul_one]
    rw [Finset.sum_mul]
    congr 1
    refine Finset.sum_congr rfl (fun j _ => ?_)
    rw [mul_assoc, ← pow_succ]

theorem getD_eq_get_of_lt {α : Type} (l : List α) (d : α) {j : ℕ} (h : j < l.length) :
    l.getD j d = l.get ⟨j, h⟩ := by
  simp [List.getD_eq_getElem?_getD, List.getElem?_eq_getElem h]

theorem sum_range_getD_pad (c : List ℚ) (v : ℚ) {m : ℕ} (h : c.length ≤ m) :
    ∑ j ∈ Finset.range c.length, c.getD j 0 * v ^ j
      = ∑ j ∈ Finset.range m, c.getD j 0 * v ^ j := by
  refine Finset.sum_subset (Finset.range_subset.mpr h) (fun j _ hj => ?_)
  rw [Finset.mem_range, not_lt] at hj
  rw [List.getD_eq_default _ _ hj, zero_mul]

theorem hornerD_eq_sum_pad (c : List ℚ) (v : ℚ) {m : ℕ} (h : c.length ≤ m) :
    hornerD c v = ∑ j ∈ Finset.range m, c.reverse.getD j 0 * v ^ j := by
  rw [hornerD_eq_sum, ← List.length_reverse c]
  exact sum_range_getD_pad c.reverse v (by simpa using h)

theorem getD_ofFn_of_lt {n : ℕ} (f : Fin n → ℚ) {j : ℕ} (h : j < n) :
    (List.ofFn f).getD j 0 = f ⟨j, h⟩ := by
  simp only [List.getD_eq_getElem?_getD, List.getElem?_ofFn]
  simp [List.ofFnNthVal, h]

theorem hornerD_ofFn_reverse {d : ℕ} (g : Fin (d + 1) → ℚ) (v : ℚ) :
    hornerD (List.ofFn g).reverse v = ∑ j : Fin (d + 1), g j * v ^ (j : ℕ) := by
  rw [hornerD_eq_sum]
  simp only [List.length_reverse, List.length_ofFn, List.reverse_reverse]
  rw [← Fin.sum_univ_eq_sum_range (fun j => (List.ofFn g).getD j 0 * v ^ j)]
  refine Finset.sum_congr rfl (fun j _ => ?_)
  rw [getD_ofFn_of_lt g j.isLt]

/-! ### The normal-equations fit recovers exact polynomial data -/

theorem lsqCoeffAsc_exact {n d : ℕ} (xf : Fin n → ℚ) (cA : Fin (d + 1) → ℚ)
    (hinj : Function.Injective xf) (hn : d + 1 ≤ n) :
    lsqCoeffAsc d xf (fun t => ∑ j : Fin (d + 1), cA j * xf t ^ (j : ℕ)) = cA := by
  classical
  set V : Matrix (Fin n) (Fin (d + 1)) ℚ := Matrix.of fun t j => xf t ^ (j : ℕ) with hV
  have hgram : gram d xf = V.transpose * V := by
    ext i j
    simp [gram, Matrix.mul_apply, hV, pow_add]
  have hy : (fun t => ∑ j : Fin (d + 1), cA j * xf t ^ (j : ℕ)) = V.mulVec cA := by
    funext t
    simp [Matrix.mulVec, Matrix.dotProduct, hV, mul_comm]
  have hmom : moments d xf (fun t => ∑ j : Fin (d + 1), cA j * xf t ^ (j : ℕ))
      = (gram d xf).mulVec cA := by
    rw [hy, hgram, ← Matrix.mulVec_mulVec]
    funext i
    simp [moments, Matrix.mulVec, Matrix.dotProduct, hV]
  have hdet : (gram d xf).det ≠ 0 := by
    intro h0
    obtain ⟨v, hv0, hgv⟩ := Matrix.exists_mulVec_eq_zero_iff.mpr h0
    have hVv : V.mulVec v = 0 := by
      have h1 : Matrix.dotProduct (V.mulVec v) (V.mulVec v) = 0 := by
        have h2 : Matrix.dotProduct v ((gram d xf).mulVec v) = 0 := by
          rw [hgv, Matrix.dotProduct_zero]
        rw [hgram, ← Matrix.mulVec_mulVec, Matrix.dotProduct_mulVec,
          Matrix.vecMul_transpose] at h2
        exact h2
      exact Matrix.dotProduct_self_eq_zero.mp h1
    set w : Fin (d + 1) → ℚ := fun i => xf (Fin.castLE hn i) with hw
    have hWv : (Matrix.vandermonde w).mulVec v = 0 := by
      funext i
      have h3 := congrFun hVv (Fin.castLE hn i)
      simpa [Matrix.mulVec, Matrix.dotProduct, Matrix.vandermonde, hV, hw] using h3
    have hdetW : (Matrix.vandermonde w).det ≠ 0 :=
      Matrix.det_vandermonde_ne_zero_iff.mpr (hinj.comp (Fin.castLE_injective hn))
    exact hdetW (Matrix.exists_mulVec_eq_zero_iff.mp ⟨v, hv0, hWv⟩)
  have hInv : matInv (gram d xf) = (gram d xf)⁻¹ := by
    rw [matInv, Matrix.inv_def, Ring.inverse_eq_inv]
  unfold lsqCoeffAsc
  rw [hmom, hInv, Matrix.mulVec_mulVec,
    Matrix.nonsing_inv_mul _ (isUnit_iff_ne_zero.mpr hdet), Matrix.one_mulVec]

/-- The list-level fit: on data that is exactly a polynomial of degree
below the fit order (coefficients `c`, highest degree first), `polyfit`
returns exactly `c`, padded with leading zeros to length `d + 1`. -/
theorem polyfit_exact (x y c : List ℚ) (d : ℕ)
    (hnd : x.Nodup) (hlen : d + 1 ≤ x.length) (hc : c.length ≤ d + 1)
    (hy : y = polyval c x) :
    polyfit x y d
      = (List.ofFn (fun j : Fin (d + 1) => c.reverse.getD (j : ℕ) 0)).reverse := by
  unfold polyfit
  congr 1
  have hxinj : Function.Injective x.get := List.nodup_iff_injective_get.mp hnd
  have hyf : (fun t : Fin x.length => y.getD (t : ℕ) 0)
      = fun t => ∑ j : Fin (d + 1), c.reverse.getD (j : ℕ) 0 * x.get t ^ (j : ℕ) := by
    funext t
    have ht : (t : ℕ) < (x.map (hornerD c)).length := by
      rw [List.length_map]
      exact t.isLt
    rw [hy, polyval, getD_eq_get_of_lt _ _ ht]
    simp only [List.get_eq_getElem, List.getElem_map]
    rw [hornerD_eq_sum_pad c _ hc,
      ← Fin.sum_univ_eq_sum_range (fun j => c.reverse.getD j 0 * x[(t : ℕ)] ^ j)]
  rw [hyf]
  exact congrArg List.ofFn (lsqCoeffAsc_exact x.get _ hxinj hlen)

/-- Fit/evaluate round trip on exact polynomial data. -/
theorem polyfit_polyval_exact (x y c : List ℚ) (d : ℕ)
    (hnd : x.Nodup) (hlen : d + 1 ≤ x.length) (hc : c.length ≤ d + 1)
    (hy : y = polyval c x) :
    polyval (polyfit x y d) x = y := by
  rw [polyfit_exact x y c d hnd hlen hc hy, hy]
  unfold polyval
  refine List.map_congr_left (fun v _ => ?_)
  rw [hornerD_ofFn_reverse, hornerD_eq_sum_pad c v hc,
    ← Fin.sum_univ_eq_sum_range (fun j => c.reverse.getD j 0 * v ^ j)]

/-! ### Small list utilities -/

theorem except_bind_ok {α β : Type} (a : α) (f : α → Except PyErr β) :
    (Except.ok a >>= f) = f a := rfl

theorem except_bind_error {α β : Type} (e : PyErr) (f : α → Except PyErr β) :
    ((Except.error e : Except PyErr α) >>= f) = Except.error e := rfl

theorem polyfitChk_ok {x y : List ℚ} (d : ℕ) (h0 : x.length ≠ 0)
    (h1 : x.length = y.length) :
    polyfitChk x y d = Except.ok (polyfit x y d) := by
  unfold polyfitChk
  rw [if_neg]
  rintro (h | h)
  · exact h0 h
  · exact h h1

theorem centered_length (l : List ℚ) : (centered l).length = l.length := by
  simp [centered]

theorem centered_nodup {l : List ℚ} (h : l.Nodup) : (centered l).Nodup :=
  h.map sub_left_injective

theorem polyval_length (p x : List ℚ) : (polyval p x).length = x.length := by
  simp [polyval]

theorem polyval_singleton (a : ℚ) (x : List ℚ) :
    polyval [a] x = List.replicate x.length a := by
  have h : hornerD [a] = fun _ => a := by
    funext v; simp [hornerD]
  rw [polyval, h]
  exact List.map_const' x a

theorem foldl_max_replicate (n : ℕ) (a : ℚ) : (List.replicate n a).foldl max a = a := by
  induction n with
  | zero => rfl
  | succ n ih => simp [List.replicate_succ, ih]

theorem listMax_replicate (n : ℕ) (a : ℚ) (h : n ≠ 0) :
    listMax (List.replicate n a) = a := by
  cases n with
  | zero => exact absurd rfl h
  | succ n => simp [List.replicate_succ, listMax, foldl_max_replicate]

theorem zipWith_sub_replicate (n : ℕ) (a b : ℚ) :
    List.zipWith (fun x y => x - y) (List.replicate n a) (List.replicate n b)
      = List.replicate n (a - b) := by
  induction n with
  | zero => rfl
  | succ n ih => simp [List.replicate_succ, ih]

/-! ### Claims C1 and C4: the calibrate subtraction law and the
fit/evaluate round trip -/

/-- C1: for an input trace and a reference trace sharing a wavelength
axis, `calibrate` succeeds and returns exactly the pair consisting of the
input power minus (element-wise) the evaluated degree-8 least-squares fit
of the reference power over the centered reference wavelength, together
with that evaluated fit curve. -/
theorem C1_calibrate_subtraction (input_response reference_response : List ℚ × List ℚ)
    (h1 : reference_response.1.length = reference_response.2.length)
    (h2 : reference_response.1 ≠ [])
    (h3 : input_response.2.length = reference_response.1.length) :
    calibrate input_response reference_response
      = Except.ok
          (List.zipWith (fun a b => a - b) input_response.2
            (polyval (polyfit (centered reference_response.1) reference_response.2 8)
              (centered reference_response.1)),
            polyval (polyfit (centered reference_response.1) reference_response.2 8)
              (centered reference_response.1))
    ∧ ∀ j, j < input_response.2.length →
        (List.zipWith (fun a b => a - b) input_response.2
          (polyval (polyfit (centered reference_response.1) reference_response.2 8)
            (centered reference_response.1))).getD j 0
        = input_response.2.getD j 0
          - (polyval (polyfit (centered reference_response.1) reference_response.2 8)
              (centered reference_response.1)).getD j 0 := by
  have e1 : (centered reference_response.1).length = reference_response.2.length := by
    rw [centered_length, h1]
  have e2 : reference_response.2.length ≠ 0 := by
    rw [← h1]
    exact fun hh => h2 (List.length_eq_zero.mp hh)
  constructor
  · have hchk : polyfitChk (centered reference_response.1) reference_response.2 8
        = Except.ok (polyfit (centered reference_response.1) reference_response.2 8) :=
      polyfitChk_ok 8 (by rw [e1]; exact e2) e1
    unfold calibrate
    simp only [hchk, except_bind_ok]
  · intro j hj
    have hfl : (polyval (polyfit (centered reference_response.1) reference_response.2 8)
        (centered reference_response.1)).length = input_response.2.length := by
      rw [polyval_length, centered_length, h3]
    have hj2 : j < (List.zipWith (fun a b => a - b) input_response.2
        (polyval (polyfit (centered reference_response.1) reference_response.2 8)
          (centered reference_response.1))).length := by
      rw [List.length_zipWith, hfl]
      omega
    rw [getD_eq_get_of_lt _ _ hj2, getD_eq_get_of_lt _ _ hj,
      getD_eq_get_of_lt _ _ (show j < _ from hfl ▸ hj)]
    simp [List.getElem_zipWith]

/-- C1 witness: a concrete input/reference pair sharing a length-3 axis. -/
theorem C1_calibrate_subtraction_witness :
    (([3, 4, 5], [7, 8, 9]) : List ℚ × List ℚ).1.length
        = (([3, 4, 5], [7, 8, 9]) : List ℚ × List ℚ).2.length
    ∧ (([3, 4, 5], [7, 8, 9]) : List ℚ × List ℚ).1 ≠ []
    ∧ (([1, 2, 3], [4, 5, 6]) : List ℚ × List ℚ).2.length
        = (([3, 4, 5], [7, 8, 9]) : List ℚ × List ℚ).1.length
    ∧ (calibrate ([1, 2, 3], [4, 5, 6]) ([3, 4, 5], [7, 8, 9])
        = Except.ok
            (List.zipWith (fun a b => a - b) [4, 5, 6]
              (polyval (polyfit (centered [3, 4, 5]) [7, 8, 9] 8) (centered [3, 4, 5])),
              polyval (polyfit (centered [3, 4, 5]) [7, 8, 9] 8) (centered [3, 4, 5]))
      ∧ ∀ j, j < ([4, 5, 6] : List ℚ).length →
          (List.zipWith (fun a b => a - b) [4, 5, 6]
            (polyval (polyfit (centered [3, 4, 5]) [7, 8, 9] 8) (centered [3, 4, 5]))).getD j 0
          = ([4, 5, 6] : List ℚ).getD j 0
            - (polyval (polyfit (centered [3, 4, 5]) [7, 8, 9] 8)
                (centered [3, 4, 5])).getD j 0) :=
  ⟨by decide, by decide, by decide,
    C1_calibrate_subtraction ([1, 2, 3], [4, 5, 6]) ([3, 4, 5], [7, 8, 9])
      (by decide) (by decide) (by decide)⟩

/-- C4: for sample points `x` with pairwise distinct values and length at
least `ord + 1`, and data `y` that is exactly a polynomial of degree at
most `ord` (coefficient list `c`, highest degree first) in the centered
points `x - mean x`, the fit/evaluate pair used by the calibration
routines reproduces `y` exactly over ℚ. -/
theorem C4_fit_eval_roundtrip (x y c : List ℚ) (ord : ℕ)
    (hnd : x.Nodup) (hlen : ord + 1 ≤ x.length) (hc : c.length ≤ ord + 1)
    (hy : y = polyval c (centered x)) :
    polyval (polyfit (centered x) y ord) (centered x) = y :=
  polyfit_polyval_exact (centered x) y c ord (centered_nodup hnd)
    (by rw [centered_length]; exact hlen) hc hy

/-- C4 witness: the degree-1 data `y = v` over centered `[0, 1, 2]`,
fitted with order 2, is reproduced exactly. -/
theorem C4_fit_eval_roundtrip_witness :
    ([0, 1, 2] : List ℚ).Nodup ∧ 2 + 1 ≤ ([0, 1, 2] : List ℚ).length
    ∧ ([1, 0] : List ℚ).length ≤ 2 + 1
    ∧ ([-1, 0, 1] : List ℚ) = polyval [1, 0] (centered [0, 1, 2])
    ∧ polyval (polyfit (centered [0, 1, 2]) [-1, 0, 1] 2) (centered [0, 1, 2])
        = [-1, 0, 1] :=
  ⟨by with_unfolding_all decide, by decide, by decide, by with_unfolding_all decide,
    C4_fit_eval_roundtrip [0, 1, 2] [-1, 0, 1] [1, 0] 2
      (by with_unfolding_all decide) (by decide) (by decide) (by with_unfolding_all decide)⟩

/-! ### Claim C5: baseline correction on constant power -/

/-- On constant power the degree-4 fit reproduces the constant, the peak
offset is zero, and the corrected power is therefore the all-zero list
(power minus fit), not the original power. -/
theorem baseline_correction_const (wl : List ℚ) (a : ℚ)
    (hnd : wl.Nodup) (hlen : 5 ≤ wl.length) :
    baseline_correction (wl, List.replicate wl.length a)
      = Except.ok (List.replicate wl.length 0, List.replicate wl.length a) := by
  have hn0 : wl.length ≠ 0 := by omega
  have hy : List.replicate wl.length a = polyval [a] (centered wl) := by
    rw [polyval_singleton, centered_length]
  have hfit : polyval (polyfit (centered wl) (List.replicate wl.length a) 4) (centered wl)
      = List.replicate wl.length a :=
    polyfit_polyval_exact (centered wl) (List.replicate wl.length a) [a] 4
      (centered_nodup hnd) (by rw [centered_length]; exact hlen) (by simp) hy
  have hchk : polyfitChk (centered wl) (List.replicate wl.length a) 4
      = Except.ok (polyfit (centered wl) (List.replicate wl.length a) 4) :=
    polyfitChk_ok 4 (by rw [centered_length]; exact hn0)
      (by rw [centered_length, List.length_replicate])
  unfold baseline_correction
  simp only [hchk, except_bind_ok, hfit]
  rw [zipWith_sub_replicate, listMax_replicate _ _ hn0]
  simp

/-- C5 counterexample: on the flat trace of constant power 1 over the
axis `[0, 1, 2, 3, 4]`, `baseline_correction` returns the all-zero
corrected power, which differs from the original power, refuting the
claim that the corrected power equals the original power. -/
theorem C5_counterexample :
    baseline_correction ([0, 1, 2, 3, 4], List.replicate 5 (1 : ℚ))
      = Except.ok (List.replicate 5 (0 : ℚ), List.replicate 5 (1 : ℚ))
    ∧ List.replicate 5 (0 : ℚ) ≠ List.replicate 5 (1 : ℚ) :=
  ⟨baseline_correction_const [0, 1, 2, 3, 4] 1 (by with_unfolding_all decide) (by decide),
    by with_unfolding_all decide⟩

/-- C5 (amended): for constant power the degree-4 fit curve equals the
constant and the peak-alignment offset is zero, so the corrected power is
the all-zero list, i.e. the original power shifted down by the constant
(equal to the original power only when the constant is zero). -/
theorem C5_baseline_flat (wl : List ℚ) (a : ℚ)
    (hnd : wl.Nodup) (hlen : 5 ≤ wl.length) :
    baseline_correction (wl, List.replicate wl.length a)
      = Except.ok (List.replicate wl.length 0, List.replicate wl.length a) :=
  baseline_correction_const wl a hnd hlen

/-- C5 witness: the amended claim at the flat trace of constant power 2. -/
theorem C5_baseline_flat_witness :
    ([0, 1, 2, 3, 4] : List ℚ).Nodup ∧ 5 ≤ ([0, 1, 2, 3, 4] : List ℚ).length
    ∧ baseline_correction ([0, 1, 2, 3, 4], List.replicate 5 (2 : ℚ))
        = Except.ok (List.replicate 5 (0 : ℚ), List.replicate 5 (2 : ℚ)) :=
  ⟨by with_unfolding_all decide, by decide,
    C5_baseline_flat [0, 1, 2, 3, 4] 2 (by with_unfolding_all decide) (by decide)⟩

/-! ### Claim C2: cutback on an affine synthetic family -/

theorem getD_replicate_of_lt {α : Type} (n : ℕ) (c d : α) {j : ℕ} (h : j < n) :
    (List.replicate n c).getD j d = c := by
  rw [getD_eq_get_of_lt _ _ (by simpa using h)]
  simp

theorem map_range_getD (l : List ℚ) (f : ℚ → ℚ) :
    (List.range l.length).map (fun i => f (l.getD i 0)) = l.map f := by
  refine List.ext_getElem (by simp) ?_
  intro j h1 h2
  have hj : j < l.length := by simpa using h2
  simp only [List.getElem_map, List.getElem_range]
  rw [getD_eq_get_of_lt _ _ hj]
  simp

theorem polyfit_const_eval (x : List ℚ) (cst : ℚ) (d : ℕ)
    (hnd : x.Nodup) (hlen : d + 1 ≤ x.length) :
    polyval (polyfit x (List.replicate x.length cst) d) x
      = List.replicate x.length cst :=
  polyfit_polyval_exact x _ [cst] d hnd hlen (by simp) (polyval_singleton cst x).symm

theorem polyfit_affine (x : List ℚ) (A B : ℚ) (hnd : x.Nodup) (h2 : 2 ≤ x.length) :
    polyfit x (x.map (fun v => A - B * v)) 1 = [-B, A] := by
  have hy : x.map (fun v => A - B * v) = polyval [-B, A] x := by
    unfold polyval
    refine List.map_congr_left (fun v _ => ?_)
    simp [hornerD]
    ring
  rw [polyfit_exact x _ [-B, A] 1 hnd h2 (by simp) hy]
  rfl

theorem mapM_ok {α β : Type} {f : α → Except PyErr β} {g : α → β} (l : List α) :
    (∀ a ∈ l, f a = Except.ok (g a)) → l.mapM f = Except.ok (l.map g) := by
  induction l with
  | nil => intro _; rfl
  | cons a rest ih =>
    intro h
    rw [List.mapM_cons, h a (List.mem_cons_self a rest), except_bind_ok,
      ih (fun b hb => h b (List.mem_cons_of_mem a hb)), except_bind_ok]
    rfl

theorem firstIdx_of_mem {l : List ℚ} {v : ℚ} (h : v ∈ l) :
    ∃ i, firstIdx l v = some i ∧ i < l.length := by
  induction l with
  | nil => cases h
  | cons a rest ih =>
    by_cases hav : a = v
    · exact ⟨0, by simp [firstIdx, hav], by simp⟩
    · have hv : v ∈ rest := by
        cases List.mem_cons.mp h with
        | inl h' => exact absurd h'.symm hav
        | inr h' => exact h'
      obtain ⟨i, hi, hlt⟩ := ih hv
      refine ⟨i + 1, by simp [firstIdx, hav, hi], ?_⟩
      simp only [List.length_cons]
      omega

theorem cutbackLoop_affine (wl counts : List ℚ) (A B : ℚ)
    (hnd : wl.Nodup) (h9 : 9 ≤ wl.length) (is : List ℕ) :
    (∀ i ∈ is, i < counts.length) →
    cutbackLoop (counts.map (fun cnt => (wl, List.replicate wl.length (A - B * cnt))))
        (centered wl) is
      = Except.ok (is.map (fun i =>
          (List.replicate wl.length (A - B * counts.getD i 0),
            List.replicate wl.length (A - B * counts.getD i 0)))) := by
  induction is with
  | nil => intro _; rfl
  | cons i rest ih =>
    intro h
    have hi : i < counts.length := h i (List.mem_cons_self i rest)
    have hrep : ∀ cst : ℚ, List.replicate wl.length cst
        = List.replicate (centered wl).length cst := by
      intro cst
      rw [centered_length]
    have hget : (counts.map (fun cnt =>
          (wl, List.replicate wl.length (A - B * cnt)))).get? i
        = some (wl, List.replicate wl.length (A - B * counts.getD i 0)) := by
      rw [List.get?_eq_getElem?, List.getElem?_map, List.getElem?_eq_getElem hi]
      rw [getD_eq_get_of_lt counts 0 hi]
      rfl
    have hchk : polyfitChk (centered wl)
          (List.replicate wl.length (A - B * counts.getD i 0)) 8
        = Except.ok (polyfit (centered wl)
            (List.replicate wl.length (A - B * counts.getD i 0)) 8) :=
      polyfitChk_ok 8 (by rw [centered_length]; omega)
        (by rw [centered_length, List.length_replicate])
    have hfit : polyval (polyfit (centered wl)
          (List.replicate wl.length (A - B * counts.getD i 0)) 8) (centered wl)
        = List.replicate wl.length (A - B * counts.getD i 0) := by
      have h' := polyfit_const_eval (centered wl) (A - B * counts.getD i 0) 8
        (centered_nodup hnd) (by rw [centered_length]; omega)
      rw [centered_length] at h'
      exact h'
    simp only [cutbackLoop, hget, optIdx, except_bind_ok, hchk,
      ih (fun b hb => h b (List.mem_cons_of_mem i hb)), List.map_cons, hfit]

/-- C2: on a synthetic trace family over a shared wavelength axis whose
powers are affine in the unit count and constant across wavelength
(`power[i][j] = A - B * count_i`), with pairwise distinct counts and a
wavelength of interest present in the axis, `cutback` returns exactly
`-B` as the loss at the wavelength of interest and the constant `-B`
sequence as both the fitted and the raw slope-versus-wavelength profiles. -/
theorem C2_cutback_linear (wl counts : List ℚ) (A B wlT : ℚ)
    (hwnd : wl.Nodup) (h9 : 9 ≤ wl.length)
    (hcnd : counts.Nodup) (hc2 : 2 ≤ counts.length) (hT : wlT ∈ wl) :
    cutback (counts.map (fun cnt => (wl, List.replicate wl.length (A - B * cnt))))
        counts wlT
      = Except.ok (-B, List.replicate wl.length (-B), List.replicate wl.length (-B)) := by
  have hcne : counts ≠ [] := by
    intro h0
    rw [h0] at hc2
    simp at hc2
  have hne : counts.map (fun cnt => (wl, List.replicate wl.length (A - B * cnt))) ≠ [] := by
    simpa using hcne
  have h0 : (counts.map (fun cnt =>
        (wl, List.replicate wl.length (A - B * cnt)))).getD 0 ([], [])
      = (wl, List.replicate wl.length (A - B * counts.getD 0 0)) := by
    have hl : 0 < counts.length := by omega
    rw [getD_eq_get_of_lt _ _ (by simpa using hl)]
    simp only [List.get_eq_getElem, List.getElem_map]
    rw [getD_eq_get_of_lt counts 0 hl]
    rfl
  obtain ⟨idx, hidx, hidxlt⟩ := firstIdx_of_mem hT
  have hloop := cutbackLoop_affine wl counts A B hwnd h9 (List.range counts.length)
    (fun i hi => List.mem_range.mp hi)
  have hsnd : ((List.range counts.length).map (fun i =>
        (List.replicate wl.length (A - B * counts.getD i 0),
          List.replicate wl.length (A - B * counts.getD i 0)))).map Prod.snd
      = (List.range counts.length).map
          (fun i => List.replicate wl.length (A - B * counts.getD i 0)) := by
    rw [List.map_map]
    rfl
  have hfst : ((List.range counts.length).map (fun i =>
        (List.replicate wl.length (A - B * counts.getD i 0),
          List.replicate wl.length (A - B * counts.getD i 0)))).map Prod.fst
      = (List.range counts.length).map
          (fun i => List.replicate wl.length (A - B * counts.getD i 0)) := by
    rw [List.map_map]
    rfl
  have hcolT : transposeL ((List.range counts.length).map (fun i =>
        List.replicate wl.length (A - B * counts.getD i 0))) wl.length
      = (List.range wl.length).map (fun _ => counts.map (fun cnt => A - B * cnt)) := by
    unfold transposeL
    refine List.map_congr_left (fun j hj => ?_)
    have hjl : j < wl.length := List.mem_range.mp hj
    rw [List.map_map]
    have hpt : ∀ i ∈ List.range counts.length,
        ((fun r => r.getD j 0) ∘
          (fun i => List.replicate wl.length (A - B * counts.getD i 0))) i
          = (fun i => A - B * counts.getD i 0) i := by
      intro i _
      exact getD_replicate_of_lt _ _ _ hjl
    rw [List.map_congr_left hpt]
    exact map_range_getD counts (fun q => A - B * q)
  have hchkcounts : polyfitChk counts (counts.map (fun cnt => A - B * cnt)) 1
      = Except.ok [-B, A] := by
    rw [polyfitChk_ok 1 (by omega) (by rw [List.length_map])]
    rw [polyfit_affine counts A B hcnd hc2]
  have hmapM : (List.range wl.length).mapM (fun j => do
        let a ← polyfitChk counts
          (((List.range wl.length).map
            (fun _ => counts.map (fun cnt => A - B * cnt))).getD j []) 1
        let b ← polyfitChk counts
          (((List.range wl.length).map
            (fun _ => counts.map (fun cnt => A - B * cnt))).getD j []) 1
        Except.ok (a, b))
      = Except.ok (List.replicate wl.length (([-B, A], [-B, A]) : List ℚ × List ℚ)) := by
    have hbody : ∀ j ∈ List.range wl.length, (do
        let a ← polyfitChk counts
          (((List.range wl.length).map
            (fun _ => counts.map (fun cnt => A - B * cnt))).getD j []) 1
        let b ← polyfitChk counts
          (((List.range wl.length).map
            (fun _ => counts.map (fun cnt => A - B * cnt))).getD j []) 1
        Except.ok (a, b))
        = Except.ok ((([-B, A], [-B, A]) : List ℚ × List ℚ)) := by
      intro j hj
      have hjl : j < wl.length := List.mem_range.mp hj
      have hgetT : (((List.range wl.length).map
          (fun _ => counts.map (fun cnt => A - B * cnt))).getD j [])
          = counts.map (fun cnt => A - B * cnt) := by
        rw [getD_eq_get_of_lt _ _ (by simpa using hjl)]
        simp
      rw [hgetT, hchkcounts, except_bind_ok, except_bind_ok]
    rw [mapM_ok (List.range wl.length) hbody]
    rw [List.map_const']
    simp
  unfold cutback
  rw [if_neg hne]
  simp only [h0, hloop, except_bind_ok, hsnd, hfst, hcolT, hidx, optIdx, hmapM]
  rw [getD_replicate_of_lt _ _ _ hidxlt]
  simp [List.map_replicate]

/-- C2 witness: the family `power[i] = 10 - 2 * count_i` over a 9-point
axis, counts `[1, 2]`, and wavelength of interest `3`. -/
theorem C2_cutback_linear_witness :
    ([0, 1, 2, 3, 4, 5, 6, 7, 8] : List ℚ).Nodup
    ∧ 9 ≤ ([0, 1, 2, 3, 4, 5, 6, 7, 8] : List ℚ).length
    ∧ ([1, 2] : List ℚ).Nodup ∧ 2 ≤ ([1, 2] : List ℚ).length
    ∧ (3 : ℚ) ∈ ([0, 1, 2, 3, 4, 5, 6, 7, 8] : List ℚ)
    ∧ cutback (([1, 2] : List ℚ).map (fun cnt =>
          (([0, 1, 2, 3, 4, 5, 6, 7, 8] : List ℚ),
            List.replicate ([0, 1, 2, 3, 4, 5, 6, 7, 8] : List ℚ).length (10 - 2 * cnt))))
        [1, 2] 3
      = Except.ok (-2,
          List.replicate ([0, 1, 2, 3, 4, 5, 6, 7, 8] : List ℚ).length (-2),
          List.replicate ([0, 1, 2, 3, 4, 5, 6, 7, 8] : List ℚ).length (-2)) :=
  ⟨by with_unfolding_all decide, by decide, by with_unfolding_all decide, by decide,
    by with_unfolding_all decide,
    C2_cutback_linear [0, 1, 2, 3, 4, 5, 6, 7, 8] [1, 2] 10 2 3
      (by with_unfolding_all decide) (by decide) (by with_unfolding_all decide)
      (by decide) (by with_unfolding_all decide)⟩

/-! ### Claim C6: invariants of the envelope scan -/

theorem envInner_ge (power : List ℚ) (step : ℕ) (tol pInit : ℚ) :
    ∀ fuel cn, cn ≤ envInner power step tol pInit fuel cn := by
  intro fuel
  induction fuel with
  | zero => intro cn; exact le_refl cn
  | succ fuel ih =>
    intro cn
    by_cases h : tol < |pInit - power.getD (step * cn) 0| ∧ (cn + 2) * step < power.length
    · simp only [envInner, if_pos h]
      exact le_trans (Nat.le_succ cn) (ih (cn + 1))
    · simp only [envInner, if_neg h]
      exact le_refl cn

theorem envScan_inv (power : List ℚ) (step : ℕ) (tol : ℚ) (hstep : 1 ≤ step) :
    ∀ (iters ci cn : ℕ) (acc : List ℕ),
      cn = ci + 1 →
      acc.Chain' (· > ·) →
      (∀ k ∈ acc, k < ci * step) →
      (∀ k ∈ acc, |power.getD k 0 - power.getD (k + step) 0| < tol) →
      (envScan power step tol iters ci cn acc).Chain' (· < ·)
      ∧ (envScan power step tol iters ci cn acc).length ≤ acc.length + iters
      ∧ ∀ k ∈ envScan power step tol iters ci cn acc,
          |power.getD k 0 - power.getD (k + step) 0| < tol := by
  intro iters
  induction iters with
  | zero =>
    intro ci cn acc _ hchain _ hguard
    refine ⟨?_, by simp [envScan], ?_⟩
    · rw [show envScan power step tol 0 ci cn acc = acc.reverse from rfl,
        List.chain'_reverse]
      exact hchain
    · intro k hk
      rw [show envScan power step tol 0 ci cn acc = acc.reverse from rfl,
        List.mem_reverse] at hk
      exact hguard k hk
  | succ iters ih =>
    intro ci cn acc hcn hchain hlt hguard
    subst hcn
    by_cases hacc : |power.getD (ci * step) 0 - power.getD (step * (ci + 1)) 0| < tol
    · have hnew : |power.getD (ci * step) 0 - power.getD (ci * step + step) 0| < tol := by
        have hmul : step * (ci + 1) = ci * step + step := by ring
        rwa [hmul] at hacc
      have hchain' : (ci * step :: acc).Chain' (· > ·) := by
        rw [List.chain'_cons']
        refine ⟨?_, hchain⟩
        intro y hy
        cases acc with
        | nil => simp at hy
        | cons a rest =>
          simp only [List.head?_cons, Option.mem_def, Option.some.injEq] at hy
          have hb := hlt a (List.mem_cons_self a rest)
          omega
      have hlt' : ∀ k ∈ ci * step :: acc, k < (ci + 1) * step := by
        intro k hk
        rcases List.mem_cons.mp hk with h | h
        · subst h
          have : (ci + 1) * step = ci * step + step := by ring
          omega
        · have h1 := hlt k h
          have : ci * step ≤ (ci + 1) * step := Nat.mul_le_mul_right step (Nat.le_succ ci)
          omega
      have hguard' : ∀ k ∈ ci * step :: acc,
          |power.getD k 0 - power.getD (k + step) 0| < tol := by
        intro k hk
        rcases List.mem_cons.mp hk with h | h
        · subst h; exact hnew
        · exact hguard k h
      by_cases hbrk : power.length ≤ (ci + 1 + 1) * step
      · simp only [envScan, if_pos hacc, if_pos hbrk]
        refine ⟨?_, ?_, ?_⟩
        · rw [List.chain'_reverse]
          exact hchain'
        · rw [List.length_reverse, List.length_cons]
          omega
        · intro k hk
          exact hguard' k (List.mem_reverse.mp hk)
      · simp only [envScan, if_pos hacc, if_neg hbrk]
        obtain ⟨ha, hb, hc⟩ := ih (ci + 1) (ci + 1 + 1) (ci * step :: acc) rfl
          hchain' hlt' hguard'
        refine ⟨ha, ?_, hc⟩
        calc (envScan power step tol iters (ci + 1) (ci + 1 + 1) (ci * step :: acc)).length
            ≤ (ci * step :: acc).length + iters := hb
          _ = acc.length + (iters + 1) := by
              rw [List.length_cons]
              omega
    · have hge : ci + 1 ≤
          envInner power step tol (power.getD (ci * step) 0) power.length (ci + 1) :=
        envInner_ge power step tol _ power.length (ci + 1)
      have hlt' : ∀ k ∈ acc, k <
          envInner power step tol (power.getD (ci * step) 0) power.length (ci + 1) * step := by
        intro k hk
        have h1 := hlt k hk
        have h2 : ci * step ≤
            envInner power step tol (power.getD (ci * step) 0) power.length (ci + 1) * step :=
          Nat.mul_le_mul_right step (by omega)
        omega
      by_cases hbrk : power.length ≤
          (envInner power step tol (power.getD (ci * step) 0) power.length (ci + 1) + 1) * step
      · simp only [envScan, if_neg hacc, if_pos hbrk]
        refine ⟨?_, ?_, ?_⟩
        · rw [List.chain'_reverse]
          exact hchain
        · rw [List.length_reverse]
          omega
        · intro k hk
          exact hguard k (List.mem_reverse.mp hk)
      · simp only [envScan, if_neg hacc, if_neg hbrk]
        obtain ⟨ha, hb, hc⟩ := ih
          (envInner power step tol (power.getD (ci * step) 0) power.length (ci + 1))
          (envInner power step tol (power.getD (ci * step) 0) power.length (ci + 1) + 1)
          acc rfl hchain hlt' hguard
        exact ⟨ha, by omega, hc⟩

/-- C6 counterexample: with reference power
`[0, 0, 5, 0, 10, 0, 15, 0, 20]`, `seg = 4` (so `step = 2`) and
`difference_tol = 8`, the envelope scan of `calibrate_envelope` accepts
the indices `[0, 2, 4, 6]`: the accepted count equals `seg` (not strictly
fewer), and the accepted pair at indices 0 and 6 differs by `15 ≥ 8` in
power, refuting both the strict count bound and the claim that no
accepted pair differs by `difference_tol` or more. -/
theorem C6_counterexample :
    envScan [0, 0, 5, 0, 10, 0, 15, 0, 20]
        (([0, 0, 5, 0, 10, 0, 15, 0, 20] : List ℚ).length / 4) 8 4 0 1 [] = [0, 2, 4, 6]
    ∧ ¬ (envScan [0, 0, 5, 0, 10, 0, 15, 0, 20]
        (([0, 0, 5, 0, 10, 0, 15, 0, 20] : List ℚ).length / 4) 8 4 0 1 []).length < 4
    ∧ (8 : ℚ) ≤ |([0, 0, 5, 0, 10, 0, 15, 0, 20] : List ℚ).getD 0 0
        - ([0, 0, 5, 0, 10, 0, 15, 0, 20] : List ℚ).getD 6 0| :=
  ⟨by with_unfolding_all decide, by with_unfolding_all decide, by with_unfolding_all decide⟩

/-- C6 (amended): whenever the scan is well-defined (`step ≥ 1`), the
accepted envelope sample indices of `calibrate_envelope`'s scan are
strictly increasing, at most `segments` many points are accepted, and
every accepted index `k` passed its acceptance guard
`|power[k] - power[k + step]| < difference_tol`; distinct accepted points
may nevertheless differ by `difference_tol` or more. -/
theorem C6_envelope_scan_invariants (power : List ℚ) (seg : ℕ) (tol : ℚ)
    (hstep : 1 ≤ power.length / seg) :
    (envScan power (power.length / seg) tol seg 0 1 []).Chain' (· < ·)
    ∧ (envScan power (power.length / seg) tol seg 0 1 []).length ≤ seg
    ∧ ∀ k ∈ envScan power (power.length / seg) tol seg 0 1 [],
        |power.getD k 0 - power.getD (k + power.length / seg) 0| < tol := by
  have h := envScan_inv power (power.length / seg) tol hstep seg 0 1 [] rfl
    (by simp) (by simp) (by simp)
  exact ⟨h.1, by simpa using h.2.1, h.2.2⟩

/-- C6 witness: a flat 4-point reference with `seg = 2` (`step = 2`)
accepts index 0 only, and the invariants hold there. -/
theorem C6_envelope_scan_invariants_witness :
    1 ≤ ([1, 1, 1, 1] : List ℚ).length / 2
    ∧ ((envScan [1, 1, 1, 1] (([1, 1, 1, 1] : List ℚ).length / 2) 8 2 0 1 []).Chain' (· < ·)
      ∧ (envScan [1, 1, 1, 1] (([1, 1, 1, 1] : List ℚ).length / 2) 8 2 0 1 []).length ≤ 2
      ∧ ∀ k ∈ envScan [1, 1, 1, 1] (([1, 1, 1, 1] : List ℚ).length / 2) 8 2 0 1 [],
          |([1, 1, 1, 1] : List ℚ).getD k 0
            - ([1, 1, 1, 1] : List ℚ).getD (k + ([1, 1, 1, 1] : List ℚ).length / 2) 0| < 8) :=
  ⟨by decide, C6_envelope_scan_invariants [1, 1, 1, 1] 2 8 (by decide)⟩

/-! ### Claims C3 and C10: bandwidth boundary behaviour -/

/-- C3: evaluation of the code at the failing input.  On the
monotonically increasing trace `[1, 2, 3, 4]` the right edge scan of
`bandwidth` runs past the last index and the code raises a plain
IndexError; no `BandOutOfRangeError` exists anywhere in the code (the
error type of the model has no such constructor), and the left scan
wraps silently instead of failing (see the C10 theorem). -/
theorem C3_bandwidth_monotonic_raises_indexerror :
    bandwidth ([1, 2, 3, 4], [1, 2, 3, 4]) 3 = Except.error PyErr.indexError := by
  with_unfolding_all decide

/-- C10: the two edge scans of `bandwidth` fail asymmetrically.  On
`wavelength [10, 20, 30, 40, 50]`, `response [6, 5, 1, 5, 2]` the peak is
at index 0; the left scan steps to index `-1`, which wraps to the last
mask entry (out of band), so the scan stops at `-1` without error and the
result `(30 - 50, (30 + 50) / 2)` is computed from `wavelength[2]` and
the wrapped read `wavelength[-1] = wavelength[4] = 50`.  On
`([1, 2, 3, 4], [1, 2, 3, 5])` the peak is at the last index and the
right scan runs past it, raising IndexError. -/
theorem C10_bandwidth_scan_asymmetry :
    bandwidth ([10, 20, 30, 40, 50], [6, 5, 1, 5, 2]) 3
      = Except.ok (30 - 50, (30 + 50) / 2)
    ∧ bandwidth ([1, 2, 3, 4], [1, 2, 3, 5]) 3 = Except.error PyErr.indexError :=
  ⟨by with_unfolding_all decide, by with_unfolding_all decide⟩

/-! ### Claim C7: no InsufficientDataError guard before the envelope fit -/

/-- C7: evaluation of the code at the failing input.  With the flat
8-sample reference and `seg = 4` (`step = 2`), the scan accepts only 3
envelope points — no more than `fitOrder = 4` — yet `calibrate_envelope`
returns a result instead of failing: the code has no
`InsufficientDataError` guard (and numpy.polyfit raises nothing for
`len(x) <= order`; the model's checked fit only raises for an empty or
length-mismatched input). -/
theorem C7_envelope_no_insufficient_data_guard :
    (envScan [0, 0, 0, 0, 0, 0, 0, 0]
        (([0, 0, 0, 0, 0, 0, 0, 0] : List ℚ).length / 4) 8 4 0 1 []).length = 3
    ∧ (calibrate_envelope ([1, 2, 3, 4, 5, 6, 7, 8], [0, 0, 0, 0, 0, 0, 0, 0])
        ([1, 2, 3, 4, 5, 6, 7, 8], [0, 0, 0, 0, 0, 0, 0, 0]) 4 8 4).isOk = true :=
  ⟨by with_unfolding_all decide, by with_unfolding_all decide⟩

/-! ### Claim C8: the input trace's own fit is dead computation -/

theorem bind_congr_dead {α β γ : Type} (E : Except PyErr α)
    (f : α → Except PyErr γ) (C : Except PyErr β) (hC : C.isOk = true) :
    (E >>= fun a => C >>= fun _ => f a) = E >>= f := by
  cases E with
  | error e => rfl
  | ok a =>
    rw [except_bind_ok, except_bind_ok]
    cases C with
    | error e => simp [Except.isOk, Except.toBool] at hC
    | ok c => rw [except_bind_ok]

/-- C8: for every well-formed input trace (equal-length, nonempty
wavelength and power, as the data model's Trace invariant requires),
`calibrate_envelope` returns exactly the value of the same function with
the input trace's own fit/evaluate pair removed: that computation never
affects the returned value. -/
theorem C8_dead_input_fit (input_response reference_response : List ℚ × List ℚ)
    (seg : ℕ) (tol : ℚ) (fitOrder : ℕ)
    (h1 : input_response.1.length = input_response.2.length)
    (h2 : input_response.1 ≠ []) :
    calibrate_envelope input_response reference_response seg tol fitOrder
      = calibrate_envelopeNoDead input_response reference_response seg tol fitOrder := by
  have hok : (polyfitChk (centered input_response.1) input_response.2 fitOrder).isOk
      = true := by
    rw [polyfitChk_ok fitOrder
      (by rw [centered_length]; exact fun hh => h2 (List.length_eq_zero.mp hh))
      (by rw [centered_length]; exact h1)]
    rfl
  unfold calibrate_envelope calibrate_envelopeNoDead
  by_cases hseg : seg = 0
  · simp [hseg]
  · simp only [if_neg hseg]
    by_cases hidx : reference_response.2.length ≤ reference_response.2.length / seg
    · simp only [if_pos hidx]
    · simp only [if_neg hidx]
      exact bind_congr_dead _ _ _ hok

/-- C8 witness: a concrete well-formed input trace against the flat
8-sample reference with `seg = 4`. -/
theorem C8_dead_input_fit_witness :
    ((([1, 2, 3], [4, 5, 6]) : List ℚ × List ℚ)).1.length
        = ((([1, 2, 3], [4, 5, 6]) : List ℚ × List ℚ)).2.length
    ∧ ((([1, 2, 3], [4, 5, 6]) : List ℚ × List ℚ)).1 ≠ []
    ∧ calibrate_envelope ([1, 2, 3], [4, 5, 6])
          ([1, 2, 3, 4, 5, 6, 7, 8], [0, 0, 0, 0, 0, 0, 0, 0]) 4 8 4
        = calibrate_envelopeNoDead ([1, 2, 3], [4, 5, 6])
          ([1, 2, 3, 4, 5, 6, 7, 8], [0, 0, 0, 0, 0, 0, 0, 0]) 4 8 4 :=
  ⟨by decide, by decide,
    C8_dead_input_fit ([1, 2, 3], [4, 5, 6])
      ([1, 2, 3, 4, 5, 6, 7, 8], [0, 0, 0, 0, 0, 0, 0, 0]) 4 8 4
      (by decide) (by decide)⟩

/-! ### Claim C9: cutback reads the wavelength axis from the first trace
only -/

/-- C9: two trace families that agree on their first trace and on every
trace's power — but may differ arbitrarily in the wavelength arrays of
traces other than the first — produce identical `cutback` results for
every count list and wavelength of interest: the function performs no
check that the traces share a wavelength axis. -/
theorem C9_cutback_first_wavelength_only (resp resp' : List (List ℚ × List ℚ))
    (counts : List ℚ) (wl : ℚ)
    (hsnd : resp.map Prod.snd = resp'.map Prod.snd)
    (hhead : resp.head? = resp'.head?) :
    cutback resp counts wl = cutback resp' counts wl := by
  have hlen : resp.length = resp'.length := by
    have h := congrArg List.length hsnd
    simpa using h
  have hloop : ∀ (is : List ℕ) (cw : List ℚ),
      cutbackLoop resp cw is = cutbackLoop resp' cw is := by
    intro is cw
    induction is with
    | nil => rfl
    | cons i rest ih =>
      have hget : (resp.get? i).map Prod.snd = (resp'.get? i).map Prod.snd := by
        rw [List.get?_eq_getElem?, List.get?_eq_getElem?, ← List.getElem?_map,
          ← List.getElem?_map, hsnd]
      cases h1 : resp.get? i with
      | none =>
        have h2 : resp'.get? i = none := by
          rw [h1] at hget
          cases h2 : resp'.get? i with
          | none => rfl
          | some t =>
            rw [h2] at hget
            simp at hget
        simp only [cutbackLoop, h1, h2, optIdx, except_bind_error]
      | some t =>
        cases h2 : resp'.get? i with
        | none =>
          rw [h1, h2] at hget
          simp at hget
        | some t' =>
          have hts : t.2 = t'.2 := by
            rw [h1, h2] at hget
            simpa using hget
          simp only [cutbackLoop, h1, h2, optIdx, except_bind_ok]
          rw [hts, ih]
  unfold cutback
  by_cases hemp : resp = []
  · have hemp' : resp' = [] := by
      rw [hemp] at hlen
      exact List.length_eq_zero.mp hlen.symm
    rw [hemp, hemp']
  · have hemp' : resp' ≠ [] := by
      intro h0
      rw [h0] at hlen
      exact hemp (List.length_eq_zero.mp hlen)
    rw [if_neg hemp, if_neg hemp']
    have hwd : (resp.getD 0 ([], [])).1 = (resp'.getD 0 ([], [])).1 := by
      cases resp with
      | nil => exact absurd rfl hemp
      | cons a as =>
        cases resp' with
        | nil => exact absurd rfl hemp'
        | cons b bs =>
          simp only [List.head?_cons, Option.some.injEq] at hhead
          rw [List.getD_cons_zero, List.getD_cons_zero, hhead]
    rw [hwd]
    simp only [hloop]

/-- C9 witness: two 2-trace families identical except in the second
trace's wavelength array. -/
theorem C9_cutback_first_wavelength_only_witness :
    ([(([1, 2], [3, 4]) : List ℚ × List ℚ), (([1, 2], [5, 6]) : List ℚ × List ℚ)].map
        Prod.snd
      = [(([1, 2], [3, 4]) : List ℚ × List ℚ), (([9, 9], [5, 6]) : List ℚ × List ℚ)].map
        Prod.snd)
    ∧ ([(([1, 2], [3, 4]) : List ℚ × List ℚ), (([1, 2], [5, 6]) : List ℚ × List ℚ)].head?
      = [(([1, 2], [3, 4]) : List ℚ × List ℚ), (([9, 9], [5, 6]) : List ℚ × List ℚ)].head?)
    ∧ cutback [(([1, 2], [3, 4]) : List ℚ × List ℚ), (([1, 2], [5, 6]) : List ℚ × List ℚ)]
          [0, 1] 1
      = cutback [(([1, 2], [3, 4]) : List ℚ × List ℚ), (([9, 9], [5, 6]) : List ℚ × List ℚ)]
          [0, 1] 1 :=
  ⟨by decide, by decide,
    C9_cutback_first_wavelength_only
      [(([1, 2], [3, 4]) : List ℚ × List ℚ), (([1, 2], [5, 6]) : List ℚ × List ℚ)]
      [(([1, 2], [3, 4]) : List ℚ × List ℚ), (([9, 9], [5, 6]) : List ℚ × List ℚ)]
      [0, 1] 1 (by decide) (by decide)⟩

end SPP
